import Mathlib

/-!
# Verification of the WebMOpusWorker frame-staging pipeline

Shallow embedding of `src/WebMOpusWorker.js`: the staging-buffer pipeline that
accumulates interleaved float samples into a fixed-size input buffer, and on
each fill drives one resample → opus-encode → container-write cycle.

Modelling conventions:
* Samples are 32-bit floats in the source, but the pipeline only moves them
  around (no arithmetic), so they are modelled as `Int`.
* JS `Float32Array` is modelled as `List Int`; an out-of-bounds write is a
  no-op (`List.set` has exactly this behaviour) and an out-of-bounds read
  yields `none` (`List.getElem?`), matching typed-array semantics.
* The three external black boxes (speex resampler, opus encoder, WebM
  container) are modelled as oracles: the k-th resampler call returns status
  `resStatus k`, the k-th encoder call returns packet length `encLen k`.
  Calls made to them are recorded in an event trace.
* Exceptions (`throw new Error(...)`) are modelled with `Except`.
-/

namespace WebMOpusWorker

/-- Audio samples; `Float32` in the source, only ever copied, never computed
with, so any value type with decidable equality is faithful. -/
abbrev Sample := Int

/-- `const OPUS_OUTPUT_SAMPLE_RATE = 48000`. -/
def OPUS_OUTPUT_SAMPLE_RATE : Nat := 48000

/-- `const OPUS_FRAME_SIZE = 20` (milliseconds). -/
def OPUS_FRAME_SIZE : Nat := 20

/-- `const BUFFER_LENGTH = 4096`, the per-channel size of the interleave
scratch buffer. -/
def BUFFER_LENGTH : Nat := 4096

/-- `const OPUS_OK = 0`. -/
def OPUS_OK : Int := 0

/-- `const RESAMPLER_ERR_SUCCESS = 0`. -/
def RESAMPLER_ERR_SUCCESS : Int := 0

/-- `this.inputSamplesPerChannel = inputSampleRate * OPUS_FRAME_SIZE / 1000`. -/
def inputSamplesPerChannel (inputSampleRate : Nat) : Nat :=
  inputSampleRate * OPUS_FRAME_SIZE / 1000

/-- `Float32Array.set(vals, start)`: copy `vals` into `buf` starting at
offset `start` (element-wise `buf.set`). -/
def setRange : List Sample → Nat → List Sample → List Sample
  | buf, _, [] => buf
  | buf, i, v :: vs => setRange (buf.set i v) (i + 1) vs

/-- The inner loop of `interleave` for one channel:
`for (i = 0; i < buffer.length; i++) scratch[i * chCount + ch] = buffer[i]`,
starting at per-channel index `i`.  An out-of-bounds store is dropped,
as for a JS typed array. -/
def writeChannel (c ch : Nat) : List Sample → Nat → List Sample → List Sample
  | scratch, _, [] => scratch
  | scratch, i, v :: vs => writeChannel c ch (scratch.set (i * c + ch) v) (i + 1) vs

/-- The outer loop of `interleave`: `for (ch = 0; ch < chCount; ch++) ...`,
with `ch` the index of the head of `bufs`. -/
def writeChannels (c : Nat) : List Sample → Nat → List (List Sample) → List Sample
  | scratch, _, [] => scratch
  | scratch, ch, b :: bs => writeChannels c (writeChannel c ch scratch 0 b) (ch + 1) bs

/-- `WebMOpusWorker.interleave(channelBuffers)`.  Returns the interleaved
stream together with the (possibly mutated) scratch buffer
`this.interleavedBuffers`.  With a single channel the input buffer itself is
returned and the scratch is untouched; otherwise every channel is written
into the scratch and the whole scratch is returned. -/
def interleave (scratch : List Sample) (channelBuffers : List (List Sample)) :
    List Sample × List Sample :=
  if channelBuffers.length = 1 then (channelBuffers.headD [], scratch)
  else
    let s := writeChannels channelBuffers.length scratch 0 channelBuffers
    (s, s)

/-- Mutable state of a `WebMOpusWorker` instance (the parts the staging
pipeline reads and writes).  `flushCount` counts completed external cycles
and indexes the oracles. -/
structure St where
  inputBufferIndex : Nat
  mInputBuffer : List Sample
  interleavedBuffers : List Sample
  flushCount : Nat
deriving DecidableEq

/-- Results of the external calls: the k-th
`_speex_resampler_process_interleaved_float` call returns `resStatus k`, the
k-th `_opus_encode_float` call returns `encLen k`. -/
structure Ext where
  resStatus : Nat → Int
  encLen : Nat → Int

/-- External calls performed during `encode`, in order. -/
inductive Ev where
  | resample (frame : List Sample) (status : Int)
  | encodePacket (len : Int)
  | writeFrame (len : Int)
deriving DecidableEq

/-- `throw new Error(...)` sites inside `encode`; `nonterminating` marks the
one input (capacity 0) on which the source's `while` loop would not
terminate. -/
inductive EncodeError where
  | resampling
  | encoding
  | nonterminating
deriving DecidableEq

/-- The body of `if (this.inputBufferIndex >= this.mInputBuffer.length)` in
`encode`: resample the full staging buffer, encode the resampled frame,
write the packet to the container, reset the cursor. -/
def flushFrame (ext : Ext) (s : St) : Except EncodeError (St × List Ev) :=
  let err := ext.resStatus s.flushCount
  if err ≠ RESAMPLER_ERR_SUCCESS then
    Except.error EncodeError.resampling
  else
    let packetLength := ext.encLen s.flushCount
    if packetLength < 0 then
      Except.error EncodeError.encoding
    else
      Except.ok
        ({ s with inputBufferIndex := 0, flushCount := s.flushCount + 1 },
         [Ev.resample s.mInputBuffer err, Ev.encodePacket packetLength,
          Ev.writeFrame packetLength])

/-- The `while (sampleIndex < samples.length)` loop of `encode`, with the
still-unconsumed suffix of `samples` as `rest`.  The loop copies
`min(capacity - cursor, remaining)` samples into the staging buffer, flushes
when the cursor reaches capacity, and repeats.  Fuel is an upper bound on
the number of iterations; each iteration consumes at least one sample unless
the capacity is zero, in which case the source loops forever
(`EncodeError.nonterminating`). -/
def encodeLoopF (ext : Ext) : Nat → St → List Sample → Except EncodeError (St × List Ev)
  | _, s, [] => Except.ok (s, [])
  | 0, _, _ :: _ => Except.error EncodeError.nonterminating
  | fuel + 1, s, v :: vs =>
    let rest := v :: vs
    let cap := s.mInputBuffer.length
    let lengthToCopy := min (cap - s.inputBufferIndex) rest.length
    let s1 : St := { s with
      mInputBuffer := setRange s.mInputBuffer s.inputBufferIndex (rest.take lengthToCopy),
      inputBufferIndex := s.inputBufferIndex + lengthToCopy }
    if cap ≤ s1.inputBufferIndex then
      match flushFrame ext s1 with
      | Except.error e => Except.error e
      | Except.ok (s2, evs) =>
        match encodeLoopF ext fuel s2 (rest.drop lengthToCopy) with
        | Except.error e => Except.error e
        | Except.ok (s3, evs2) => Except.ok (s3, evs ++ evs2)
    else
      match encodeLoopF ext fuel s1 (rest.drop lengthToCopy) with
      | Except.error e => Except.error e
      | Except.ok (s3, evs2) => Except.ok (s3, evs2)

/-- `WebMOpusWorker.encode(buffers, final = false)`.  The `final` flag is
accepted and, as in the source, never used (`if (final) { }` has an empty
body). -/
def encode (ext : Ext) (s : St) (buffers : List (List Sample)) (final : Bool := false) :
    Except EncodeError (St × List Ev) :=
  let p := interleave s.interleavedBuffers buffers
  encodeLoopF ext p.1.length { s with interleavedBuffers := p.2 } p.1

/-- A sequence of `encode` (`pushInputData`) calls, threading the worker
state; events of all calls are concatenated. -/
def feedMany (ext : Ext) (s : St) : List (List (List Sample)) →
    Except EncodeError (St × List Ev)
  | [] => Except.ok (s, [])
  | bufs :: rest =>
    match encode ext s bufs false with
    | Except.error e => Except.error e
    | Except.ok (s1, evs1) =>
      match feedMany ext s1 rest with
      | Except.error e => Except.error e
      | Except.ok (s2, evs2) => Except.ok (s2, evs1 ++ evs2)

/-- The interleaved stream produced by each call of a `feedMany` sequence
(the successive values of `samples` in `encode`), threading the scratch
buffer through the calls. -/
def interleaveStreams : List Sample → List (List (List Sample)) → List (List Sample)
  | _, [] => []
  | scratch, bufs :: rest =>
    (interleave scratch bufs).1 :: interleaveStreams (interleave scratch bufs).2 rest

/-- Results of the external calls made by the constructor: `opusErr` is the
error word written by `_opus_encoder_create`, `speexErr` the one written by
`_speex_resampler_init`.  Constructing the WebM container has no error
path in the source. -/
structure InitExt where
  opusErr : Int
  speexErr : Int
deriving DecidableEq

/-- `throw new Error(...)` sites reachable from the constructor. -/
inductive InitError where
  | opusInit
  | speexInit
deriving DecidableEq

/-- Resource acquisition/release events during construction. -/
inductive RsrcEv where
  | acquireContainer
  | acquireEncoder
  | acquireResampler
  | releaseContainer
  | releaseEncoder
  | releaseResampler
deriving DecidableEq

/-- `new WebMOpusWorker(inputSampleRate, channelCount, ...)`: acquires the
container writer, then the opus encoder (`OpusInitCodec`, which throws on a
non-`OPUS_OK` status), then the speex resampler (`SpeexInitResampler`, which
throws on a non-success status), then allocates the buffers.  The returned
trace records every acquire/release performed, including on the throwing
paths — the source performs no release before a constructor throw
propagates.  `this.interleavedBuffers` is `undefined` for one channel,
modelled as `[]`. -/
def construct (ext : InitExt) (inputSampleRate channelCount : Nat) :
    Except InitError St × List RsrcEv :=
  let evs := [RsrcEv.acquireContainer, RsrcEv.acquireEncoder]
  if ext.opusErr ≠ OPUS_OK then (Except.error InitError.opusInit, evs)
  else
    let evs := evs ++ [RsrcEv.acquireResampler]
    if ext.speexErr ≠ RESAMPLER_ERR_SUCCESS then (Except.error InitError.speexInit, evs)
    else
      (Except.ok
        { inputBufferIndex := 0
          mInputBuffer :=
            List.replicate (inputSamplesPerChannel inputSampleRate * channelCount) 0
          interleavedBuffers :=
            if channelCount ≠ 1 then List.replicate (BUFFER_LENGTH * channelCount) 0 else []
          flushCount := 0 },
       evs)

/-- Liveness of the six resources owned by a ready worker instance. -/
structure Rsrc where
  container : Bool
  inputBuf : Bool
  resampledBuf : Bool
  outputBuf : Bool
  encoder : Bool
  resampler : Bool
deriving DecidableEq

/-- Release actions performed by `close`, in trace order. -/
inductive CloseEv where
  | destroyContainer
  | freeInputBuffer
  | freeResampledBuffer
  | freeOutputBuffer
  | destroyEncoder
  | destroyResampler
deriving DecidableEq

/-- `Module.destroy(this._contrainer)`. -/
def containerDestroy (r : Rsrc) : Rsrc × CloseEv :=
  ({ r with container := false }, CloseEv.destroyContainer)

/-- `this.mInputBuffer.free()`. -/
def inputBufferFree (r : Rsrc) : Rsrc × CloseEv :=
  ({ r with inputBuf := false }, CloseEv.freeInputBuffer)

/-- `this.mResampledBuffer.free()`. -/
def resampledBufferFree (r : Rsrc) : Rsrc × CloseEv :=
  ({ r with resampledBuf := false }, CloseEv.freeResampledBuffer)

/-- `this.mOutputBuffer.free()`. -/
def outputBufferFree (r : Rsrc) : Rsrc × CloseEv :=
  ({ r with outputBuf := false }, CloseEv.freeOutputBuffer)

/-- `this._opus_encoder_destroy(this.encoder)`. -/
def encoderDestroy (r : Rsrc) : Rsrc × CloseEv :=
  ({ r with encoder := false }, CloseEv.destroyEncoder)

/-- `this._speex_resampler_destroy(this.resampler)`. -/
def resamplerDestroy (r : Rsrc) : Rsrc × CloseEv :=
  ({ r with resampler := false }, CloseEv.destroyResampler)

/-- `WebMOpusWorker.close()`: the six release calls in source order. -/
def close (r : Rsrc) : Rsrc × List CloseEv :=
  let p1 := containerDestroy r
  let p2 := inputBufferFree p1.1
  let p3 := resampledBufferFree p2.1
  let p4 := outputBufferFree p3.1
  let p5 := encoderDestroy p4.1
  let p6 := resamplerDestroy p5.1
  (p6.1, [p1.2, p2.2, p3.2, p4.2, p5.2, p6.2])

/-- Every resource `encode` touches (staging, resampled and output buffers,
resampler handle, encoder handle, container writer) is still live. -/
def canOperate (r : Rsrc) : Bool :=
  r.container && r.inputBuf && r.resampledBuf && r.outputBuf && r.encoder && r.resampler

/-- Interleaved sample payload of the resampler calls in a trace, in call
order. -/
def flushedSamples : List Ev → List Sample
  | [] => []
  | Ev.resample f _ :: rest => f ++ flushedSamples rest
  | Ev.encodePacket _ :: rest => flushedSamples rest
  | Ev.writeFrame _ :: rest => flushedSamples rest

/-- Number of resampler invocations (= completed or attempted flush cycles)
in a trace. -/
def resampleCount : List Ev → Nat
  | [] => 0
  | Ev.resample _ _ :: rest => resampleCount rest + 1
  | Ev.encodePacket _ :: rest => resampleCount rest
  | Ev.writeFrame _ :: rest => resampleCount rest

/-- A trace made of complete resample → encode → container-write cycles, in
that strict order, each resample succeeding on a full frame of `cap`
samples and each encode returning a non-negative packet length. -/
inductive CycleTrace (cap : Nat) : List Ev → Prop
  | nil : CycleTrace cap []
  | cons (f : List Sample) (n : Int) (rest : List Ev) :
      f.length = cap → 0 ≤ n → CycleTrace cap rest →
      CycleTrace cap (Ev.resample f 0 :: Ev.encodePacket n :: Ev.writeFrame n :: rest)

theorem setRange_length (vs : List Sample) : ∀ (buf : List Sample) (i : Nat),
    (setRange buf i vs).length = buf.length := by
  induction vs with
  | nil => intro buf i; rfl
  | cons v tl ih => intro buf i; rw [setRange, ih, List.length_set]

theorem setRange_eq (vs : List Sample) : ∀ (buf : List Sample) (i : Nat),
    i + vs.length ≤ buf.length →
    setRange buf i vs = buf.take i ++ vs ++ buf.drop (i + vs.length) := by
  induction vs with
  | nil =>
    intro buf i _
    simp [setRange]
  | cons v tl ih =>
    intro buf i h
    have hi : i < buf.length := by simp only [List.length_cons] at h; omega
    have hA : (buf.take i).length = i := by rw [List.length_take]; omega
    rw [setRange, ih (buf.set i v) (i + 1)
      (by rw [List.length_set]; simp only [List.length_cons] at h; omega)]
    rw [List.set_eq_take_append_cons_drop, if_pos hi]
    have e1 : (buf.take i ++ v :: buf.drop (i + 1)).take (i + 1) = buf.take i ++ [v] := by
      rw [show i + 1 = (buf.take i).length + 1 from by rw [hA], List.take_append]
      simp
    have e2 : (buf.take i ++ v :: buf.drop (i + 1)).drop (i + 1 + tl.length)
        = buf.drop (i + (tl.length + 1)) := by
      rw [show i + 1 + tl.length = (buf.take i).length + (1 + tl.length) from by omega,
        List.drop_append, Nat.add_comm 1 tl.length, List.drop_succ_cons, List.drop_drop]
      rw [show i + 1 + tl.length = i + (tl.length + 1) from by omega]
    rw [e1, e2]
    simp [List.append_assoc]

theorem flushedSamples_append (a b : List Ev) :
    flushedSamples (a ++ b) = flushedSamples a ++ flushedSamples b := by
  induction a with
  | nil => rfl
  | cons e tl ih => cases e <;> simp [flushedSamples, ih]

theorem resampleCount_append (a b : List Ev) :
    resampleCount (a ++ b) = resampleCount a + resampleCount b := by
  induction a with
  | nil => simp [resampleCount]
  | cons e tl ih => cases e <;> simp [resampleCount, ih] <;> omega

theorem CycleTrace.append {cap : Nat} {a b : List Ev}
    (ha : CycleTrace cap a) (hb : CycleTrace cap b) : CycleTrace cap (a ++ b) := by
  induction ha with
  | nil => exact hb
  | cons f n rest hf hn _ ih => exact CycleTrace.cons f n _ hf hn ih

theorem CycleTrace.flushedSamples_length {cap : Nat} {evs : List Ev}
    (h : CycleTrace cap evs) : (flushedSamples evs).length = cap * resampleCount evs := by
  induction h with
  | nil => rfl
  | cons f n rest hf _ _ ih =>
    simp only [flushedSamples, resampleCount, List.length_append, ih, hf, Nat.mul_add,
      Nat.mul_one]
    omega

theorem CycleTrace.eq_nil {cap : Nat} {evs : List Ev}
    (h : CycleTrace cap evs) (h0 : resampleCount evs = 0) : evs = [] := by
  cases h with
  | nil => rfl
  | cons f n rest _ _ _ => simp [resampleCount] at h0

theorem CycleTrace.eq_single {cap : Nat} {evs : List Ev}
    (h : CycleTrace cap evs) (h1 : resampleCount evs = 1) :
    ∃ f n, evs = [Ev.resample f 0, Ev.encodePacket n, Ev.writeFrame n] ∧
      f.length = cap ∧ 0 ≤ n := by
  cases h with
  | nil => simp [resampleCount] at h1
  | cons f n rest hf hn hr =>
    have h0 : resampleCount rest = 0 := by
      simp only [resampleCount] at h1
      omega
    rw [hr.eq_nil h0]
    exact ⟨f, n, rfl, hf, hn⟩

theorem flushFrame_ok {ext : Ext} {s s2 : St} {evs : List Ev}
    (h : flushFrame ext s = Except.ok (s2, evs)) :
    ext.resStatus s.flushCount = RESAMPLER_ERR_SUCCESS ∧
    0 ≤ ext.encLen s.flushCount ∧
    s2 = { s with inputBufferIndex := 0, flushCount := s.flushCount + 1 } ∧
    evs = [Ev.resample s.mInputBuffer RESAMPLER_ERR_SUCCESS,
           Ev.encodePacket (ext.encLen s.flushCount),
           Ev.writeFrame (ext.encLen s.flushCount)] := by
  simp only [flushFrame] at h
  split at h
  · exact absurd h (by simp)
  · split at h
    · exact absurd h (by simp)
    · rename_i h1 h2
      rw [not_not] at h1
      simp only [Except.ok.injEq, Prod.mk.injEq] at h
      exact ⟨h1, by omega, h.1.symm, by rw [← h.2, h1]⟩

theorem encodeLoopF_spec (ext : Ext) :
    ∀ (fuel : Nat) (s : St) (rest : List Sample) (s' : St) (evs : List Ev),
      rest.length ≤ fuel →
      0 < s.mInputBuffer.length →
      s.inputBufferIndex < s.mInputBuffer.length →
      encodeLoopF ext fuel s rest = Except.ok (s', evs) →
      s'.mInputBuffer.length = s.mInputBuffer.length ∧
      s'.interleavedBuffers = s.interleavedBuffers ∧
      s'.inputBufferIndex = (s.inputBufferIndex + rest.length) % s.mInputBuffer.length ∧
      s'.flushCount = s.flushCount
        + (s.inputBufferIndex + rest.length) / s.mInputBuffer.length ∧
      resampleCount evs = (s.inputBufferIndex + rest.length) / s.mInputBuffer.length ∧
      flushedSamples evs ++ s'.mInputBuffer.take s'.inputBufferIndex
        = s.mInputBuffer.take s.inputBufferIndex ++ rest ∧
      CycleTrace s.mInputBuffer.length evs := by
  intro fuel
  induction fuel with
  | zero =>
    intro s rest s' evs hfuel hcap hidx h
    have hnil : rest = [] := List.eq_nil_of_length_eq_zero (Nat.le_zero.mp hfuel)
    subst hnil
    simp only [encodeLoopF, Except.ok.injEq, Prod.mk.injEq] at h
    obtain ⟨rfl, rfl⟩ := h
    refine ⟨rfl, rfl, ?_, ?_, ?_, ?_, CycleTrace.nil⟩
    · simp [Nat.mod_eq_of_lt hidx]
    · simp [Nat.div_eq_of_lt hidx]
    · simp [Nat.div_eq_of_lt hidx, resampleCount]
    · simp [flushedSamples]
  | succ fuel ih =>
    intro s rest s' evs hfuel hcap hidx h
    cases rest with
    | nil =>
      simp only [encodeLoopF, Except.ok.injEq, Prod.mk.injEq] at h
      obtain ⟨rfl, rfl⟩ := h
      refine ⟨rfl, rfl, ?_, ?_, ?_, ?_, CycleTrace.nil⟩
      · simp [Nat.mod_eq_of_lt hidx]
      · simp [Nat.div_eq_of_lt hidx]
      · simp [Nat.div_eq_of_lt hidx, resampleCount]
      · simp [flushedSamples]
    | cons v vs =>
      simp only [encodeLoopF] at h
      set cap := s.mInputBuffer.length with hcapdef
      set idx := s.inputBufferIndex with hidxdef
      set L := (v :: vs).length with hLdef
      set ltc := min (cap - idx) L with hltcdef
      have hL1 : 1 ≤ L := by simp [hLdef]
      have hltc1 : 1 ≤ ltc := by omega
      have hltc2 : ltc ≤ cap - idx := Nat.min_le_left _ _
      have hltc3 : ltc ≤ L := Nat.min_le_right _ _
      have htklen : ((v :: vs).take ltc).length = ltc := by
        rw [List.length_take]
        omega
      set s1 : St := { s with
        mInputBuffer := setRange s.mInputBuffer idx ((v :: vs).take ltc),
        inputBufferIndex := idx + ltc } with hs1def
      have hs1len : s1.mInputBuffer.length = cap := by
        simp [hs1def, setRange_length]
      have hs1buf : s1.mInputBuffer
          = s.mInputBuffer.take idx ++ (v :: vs).take ltc
            ++ s.mInputBuffer.drop (idx + ltc) := by
        show setRange s.mInputBuffer idx ((v :: vs).take ltc) = _
        rw [setRange_eq ((v :: vs).take ltc) s.mInputBuffer idx (by rw [htklen]; omega),
          htklen]
      split at h
      · -- flush branch: idx + ltc = cap
        rename_i hge
        have hge' : cap ≤ idx + ltc := hge
        have hfill : idx + ltc = cap := by omega
        cases hFF : flushFrame ext s1 with
        | error e =>
          simp only [hFF] at h
          exact absurd h (by simp)
        | ok p =>
          obtain ⟨s2, evs1⟩ := p
          simp only [hFF] at h
          obtain ⟨hres, hlen0, hs2, hevs1⟩ := flushFrame_ok hFF
          cases hR : encodeLoopF ext fuel s2 ((v :: vs).drop ltc) with
          | error e =>
            simp only [hR] at h
            exact absurd h (by simp)
          | ok q =>
            obtain ⟨s3, evs2⟩ := q
            simp only [hR, Except.ok.injEq, Prod.mk.injEq] at h
            obtain ⟨h1, h2⟩ := h
            subst h1
            subst h2
            have hs2cap : s2.mInputBuffer.length = cap := by rw [hs2]; exact hs1len
            have hs2idx : s2.inputBufferIndex = 0 := by rw [hs2]
            have hs2il : s2.interleavedBuffers = s.interleavedBuffers := by rw [hs2]
            have hs2fc : s2.flushCount = s.flushCount + 1 := by rw [hs2]
            have hdrop : ((v :: vs).drop ltc).length = L - ltc := by
              rw [List.length_drop]
            obtain ⟨c1, c2, c3, c4, c5, c6, c7⟩ :=
              ih s2 ((v :: vs).drop ltc) s3 evs2
                (by rw [hdrop]; omega)
                (by rw [hs2cap]; exact hcap)
                (by rw [hs2idx, hs2cap]; exact hcap)
                hR
            have harith : idx + L = cap + (L - ltc) := by omega
            have hdiv : (idx + L) / cap = (L - ltc) / cap + 1 := by
              rw [harith, Nat.add_comm cap (L - ltc), Nat.add_div_right _ hcap]
            have hmod : (idx + L) % cap = (L - ltc) % cap := by
              rw [harith, Nat.add_mod_left]
            have hframe : s1.mInputBuffer
                = s.mInputBuffer.take idx ++ (v :: vs).take ltc := by
              rw [hs1buf, hfill, hcapdef, List.drop_length, List.append_nil]
            refine ⟨?_, ?_, ?_, ?_, ?_, ?_, ?_⟩
            · rw [c1, hs2cap]
            · rw [c2, hs2il]
            · rw [c3, hs2cap, hs2idx, hmod, hdrop, Nat.zero_add]
            · rw [c4, hs2cap, hs2idx, hs2fc, hdrop, hdiv, Nat.zero_add]
              omega
            · rw [resampleCount_append, hevs1, c5, hs2cap, hs2idx, hdrop, hdiv,
                Nat.zero_add]
              simp [resampleCount]
              omega
            · rw [flushedSamples_append, hevs1]
              have hflush1 : flushedSamples
                  [Ev.resample s1.mInputBuffer RESAMPLER_ERR_SUCCESS,
                   Ev.encodePacket (ext.encLen s1.flushCount),
                   Ev.writeFrame (ext.encLen s1.flushCount)] = s1.mInputBuffer := by
                simp [flushedSamples]
              rw [hflush1]
              have c6' : flushedSamples evs2 ++ s3.mInputBuffer.take s3.inputBufferIndex
                  = (v :: vs).drop ltc := by
                rw [c6, hs2idx]
                simp
              rw [List.append_assoc, c6', hframe, List.append_assoc,
                List.take_append_drop]
            · have hevs' : evs1 ++ evs2
                  = Ev.resample s1.mInputBuffer 0 :: Ev.encodePacket (ext.encLen s1.flushCount)
                    :: Ev.writeFrame (ext.encLen s1.flushCount) :: evs2 := by
                rw [hevs1]
                rfl
              rw [hevs']
              exact CycleTrace.cons _ _ _ (by rw [hs1len]) hlen0 (by rw [← hs2cap]; exact c7)
      · -- no-flush branch: ltc = L and idx + L < cap
        rename_i hlt
        have hlt' : idx + ltc < cap := by
          exact Nat.lt_of_not_le hlt
        have hltcL : ltc = L := by omega
        have hdropnil : (v :: vs).drop ltc = [] := by
          rw [List.drop_eq_nil_iff]
          omega
        rw [hdropnil] at h
        simp only [encodeLoopF, Except.ok.injEq, Prod.mk.injEq] at h
        obtain ⟨rfl, rfl⟩ := h
        have htake : (v :: vs).take ltc = v :: vs := by
          rw [hltcL, hLdef, List.take_length]
        refine ⟨hs1len, rfl, ?_, ?_, ?_, ?_, CycleTrace.nil⟩
        · show idx + ltc = (idx + L) % cap
          rw [hltcL, Nat.mod_eq_of_lt (by omega)]
        · show s.flushCount = s.flushCount + (idx + L) / cap
          rw [Nat.div_eq_of_lt (by omega)]
          omega
        · show resampleCount [] = (idx + L) / cap
          rw [Nat.div_eq_of_lt (by omega)]
          rfl
        · show flushedSamples [] ++ s1.mInputBuffer.take (idx + ltc)
            = s.mInputBuffer.take idx ++ (v :: vs)
          have : s1.mInputBuffer.take (idx + ltc)
              = s.mInputBuffer.take idx ++ (v :: vs) := by
            rw [hs1buf, htake]
            refine List.take_left' ?_
            rw [List.length_append, List.length_take]
            omega
          rw [this]
          rfl

theorem encode_spec {ext : Ext} {s : St} {buffers : List (List Sample)} {final : Bool}
    {s' : St} {evs : List Ev}
    (hcap : 0 < s.mInputBuffer.length)
    (hidx : s.inputBufferIndex < s.mInputBuffer.length)
    (h : encode ext s buffers final = Except.ok (s', evs)) :
    s'.mInputBuffer.length = s.mInputBuffer.length ∧
    s'.interleavedBuffers = (interleave s.interleavedBuffers buffers).2 ∧
    s'.inputBufferIndex
      = (s.inputBufferIndex + (interleave s.interleavedBuffers buffers).1.length)
        % s.mInputBuffer.length ∧
    s'.flushCount = s.flushCount
      + (s.inputBufferIndex + (interleave s.interleavedBuffers buffers).1.length)
        / s.mInputBuffer.length ∧
    resampleCount evs
      = (s.inputBufferIndex + (interleave s.interleavedBuffers buffers).1.length)
        / s.mInputBuffer.length ∧
    flushedSamples evs ++ s'.mInputBuffer.take s'.inputBufferIndex
      = s.mInputBuffer.take s.inputBufferIndex
        ++ (interleave s.interleavedBuffers buffers).1 ∧
    CycleTrace s.mInputBuffer.length evs := by
  simp only [encode] at h
  exact encodeLoopF_spec ext (interleave s.interleavedBuffers buffers).1.length
    { s with interleavedBuffers := (interleave s.interleavedBuffers buffers).2 }
    (interleave s.interleavedBuffers buffers).1 s' evs le_rfl hcap hidx h

theorem feedMany_spec {ext : Ext} :
    ∀ {inputs : List (List (List Sample))} {s s' : St} {evs : List Ev},
      0 < s.mInputBuffer.length →
      s.inputBufferIndex < s.mInputBuffer.length →
      feedMany ext s inputs = Except.ok (s', evs) →
      s'.mInputBuffer.length = s.mInputBuffer.length ∧
      s'.inputBufferIndex < s.mInputBuffer.length ∧
      s.mInputBuffer.length * resampleCount evs + s'.inputBufferIndex
        = s.inputBufferIndex
          + ((interleaveStreams s.interleavedBuffers inputs).map List.length).sum ∧
      flushedSamples evs ++ s'.mInputBuffer.take s'.inputBufferIndex
        = s.mInputBuffer.take s.inputBufferIndex
          ++ (interleaveStreams s.interleavedBuffers inputs).flatten ∧
      CycleTrace s.mInputBuffer.length evs := by
  intro inputs
  induction inputs with
  | nil =>
    intro s s' evs hcap hidx h
    simp only [feedMany, Except.ok.injEq, Prod.mk.injEq] at h
    obtain ⟨h1, h2⟩ := h
    subst h1
    subst h2
    refine ⟨rfl, hidx, ?_, ?_, CycleTrace.nil⟩
    · simp [interleaveStreams, resampleCount]
    · simp [interleaveStreams, flushedSamples]
  | cons bufs rest ih =>
    intro s s' evs hcap hidx h
    simp only [feedMany] at h
    cases hE : encode ext s bufs false with
    | error e =>
      simp only [hE] at h
      exact absurd h (by simp)
    | ok p =>
      obtain ⟨s1, evs1⟩ := p
      simp only [hE] at h
      cases hF : feedMany ext s1 rest with
      | error e =>
        simp only [hF] at h
        exact absurd h (by simp)
      | ok q =>
        obtain ⟨s2, evs2⟩ := q
        simp only [hF, Except.ok.injEq, Prod.mk.injEq] at h
        obtain ⟨h1, h2⟩ := h
        subst h1
        subst h2
        obtain ⟨e1, e2, e3, e4, e5, e6, e7⟩ := encode_spec hcap hidx hE
        have h1cap : 0 < s1.mInputBuffer.length := by rw [e1]; exact hcap
        have h1idx : s1.inputBufferIndex < s1.mInputBuffer.length := by
          rw [e1, e3]
          exact Nat.mod_lt _ hcap
        obtain ⟨f1, f2, f3, f4, f5⟩ := ih h1cap h1idx hF
        rw [e1] at f1 f2 f3 f5
        rw [e2] at f3 f4
        have hcount1 : s.mInputBuffer.length * resampleCount evs1 + s1.inputBufferIndex
            = s.inputBufferIndex + (interleave s.interleavedBuffers bufs).1.length := by
          rw [e3, e5]
          exact Nat.div_add_mod _ _
        refine ⟨f1, f2, ?_, ?_, ?_⟩
        · rw [resampleCount_append, Nat.mul_add]
          simp only [interleaveStreams, List.map_cons, List.sum_cons]
          linarith [hcount1, f3]
        · rw [flushedSamples_append, List.append_assoc, f4]
          simp only [interleaveStreams, List.flatten_cons]
          rw [← List.append_assoc, e6, List.append_assoc]
        · exact e7.append f5

/-- Characterization of a successful construction: both init statuses were
success, and the state starts with cursor 0, a zeroed staging buffer of
`inputSamplesPerChannel × channelCount` samples, and (for more than one
channel) a zeroed scratch of `BUFFER_LENGTH × channelCount` samples. -/
theorem construct_ok {ext : InitExt} {sr c : Nat} {s0 : St}
    (h : (construct ext sr c).1 = Except.ok s0) :
    ext.opusErr = OPUS_OK ∧ ext.speexErr = RESAMPLER_ERR_SUCCESS ∧
    s0 = { inputBufferIndex := 0
           mInputBuffer := List.replicate (inputSamplesPerChannel sr * c) 0
           interleavedBuffers :=
             if c ≠ 1 then List.replicate (BUFFER_LENGTH * c) 0 else []
           flushCount := 0 } := by
  simp only [construct] at h
  split at h
  · exact absurd h (by simp)
  · split at h
    · exact absurd h (by simp)
    · rename_i h1 h2
      rw [not_not] at h1 h2
      simp only [Except.ok.injEq] at h
      exact ⟨h1, h2, h.symm⟩

theorem writeChannel_length (c ch : Nat) :
    ∀ (b scratch : List Sample) (i : Nat),
      (writeChannel c ch scratch i b).length = scratch.length := by
  intro b
  induction b with
  | nil => intro scratch i; rfl
  | cons v tl ih => intro scratch i; rw [writeChannel, ih, List.length_set]

theorem writeChannel_getElem?_of_mod_ne (c ch : Nat) {j : Nat} (hj : j % c ≠ ch % c) :
    ∀ (b scratch : List Sample) (i : Nat),
      (writeChannel c ch scratch i b)[j]? = scratch[j]? := by
  intro b
  induction b with
  | nil => intro scratch i; rfl
  | cons v tl ih =>
    intro scratch i
    rw [writeChannel, ih, List.getElem?_set_ne]
    intro heq
    exact hj (by rw [← heq, Nat.add_comm (i * c) ch, Nat.add_mul_mod_self_right])

theorem writeChannel_getElem?_of_lt (c ch : Nat) {j : Nat} :
    ∀ (b scratch : List Sample) (i : Nat), j < i * c + ch →
      (writeChannel c ch scratch i b)[j]? = scratch[j]? := by
  intro b
  induction b with
  | nil => intro scratch i _; rfl
  | cons v tl ih =>
    intro scratch i hji
    have hlt : j < (i + 1) * c + ch := by
      rw [Nat.add_mul, Nat.one_mul]
      omega
    rw [writeChannel, ih _ _ hlt, List.getElem?_set_ne (by omega)]

theorem writeChannel_getElem?_of_ge (c ch : Nat) (hch : ch < c) {j : Nat} :
    ∀ (b scratch : List Sample) (i : Nat), (i + b.length) * c ≤ j →
      (writeChannel c ch scratch i b)[j]? = scratch[j]? := by
  intro b
  induction b with
  | nil => intro scratch i _; rfl
  | cons v tl ih =>
    intro scratch i hbound
    rw [List.length_cons, Nat.add_mul, Nat.add_mul, Nat.one_mul] at hbound
    have hrec : (i + 1 + tl.length) * c ≤ j := by
      rw [Nat.add_mul, Nat.add_mul, Nat.one_mul]
      omega
    rw [writeChannel, ih _ _ hrec, List.getElem?_set_ne (by omega)]

theorem writeChannel_getElem?_hit (c ch : Nat) (hc : 0 < c) :
    ∀ (b scratch : List Sample) (i0 k : Nat), k < b.length →
      (i0 + k) * c + ch < scratch.length →
      (writeChannel c ch scratch i0 b)[(i0 + k) * c + ch]? = b[k]? := by
  intro b
  induction b with
  | nil =>
    intro scratch i0 k hk
    simp at hk
  | cons v tl ih =>
    intro scratch i0 k hk hbound
    cases k with
    | zero =>
      have hlt : (i0 + 0) * c + ch < (i0 + 1) * c + ch := by
        rw [Nat.add_mul, Nat.add_mul, Nat.one_mul, Nat.zero_mul]
        omega
      rw [writeChannel, writeChannel_getElem?_of_lt c ch tl _ (i0 + 1) hlt]
      rw [show (i0 + 0) * c + ch = i0 * c + ch from by rw [Nat.add_zero]]
      rw [List.getElem?_set_self (by
        rw [show i0 * c + ch = (i0 + 0) * c + ch from by rw [Nat.add_zero]]
        exact hbound)]
      exact List.getElem?_cons_zero.symm
    | succ k' =>
      have hidxeq : (i0 + (k' + 1)) * c + ch = (i0 + 1 + k') * c + ch := by
        rw [show i0 + (k' + 1) = i0 + 1 + k' from by omega]
      rw [writeChannel, hidxeq,
        ih (scratch.set (i0 * c + ch) v) (i0 + 1) k' (by simpa using hk)
          (by rw [List.length_set, ← hidxeq]; exact hbound)]
      exact (List.getElem?_cons_succ).symm

theorem writeChannels_length (c : Nat) :
    ∀ (bufs : List (List Sample)) (scratch : List Sample) (ch : Nat),
      (writeChannels c scratch ch bufs).length = scratch.length := by
  intro bufs
  induction bufs with
  | nil => intro scratch ch; rfl
  | cons b bs ih => intro scratch ch; rw [writeChannels, ih, writeChannel_length]

theorem writeChannels_getElem?_untouched (c : Nat) {j : Nat} :
    ∀ (bufs : List (List Sample)) (scratch : List Sample) (ch0 : Nat),
      ch0 + bufs.length ≤ c →
      (∀ k, k < bufs.length → j % c ≠ ch0 + k) →
      (writeChannels c scratch ch0 bufs)[j]? = scratch[j]? := by
  intro bufs
  induction bufs with
  | nil => intro scratch ch0 _ _; rfl
  | cons b bs ih =>
    intro scratch ch0 hle hmiss
    have hch0 : ch0 < c := by
      rw [List.length_cons] at hle
      omega
    rw [writeChannels,
      ih _ (ch0 + 1) (by rw [List.length_cons] at hle; omega)
        (fun k hk => by
          rw [show ch0 + 1 + k = ch0 + (k + 1) from by omega]
          exact hmiss (k + 1) (by rw [List.length_cons]; omega)),
      writeChannel_getElem?_of_mod_ne c ch0
        (by rw [Nat.mod_eq_of_lt hch0]; exact hmiss 0 (by rw [List.length_cons]; omega))]

theorem writeChannels_getElem?_of_ge (c : Nat) {L j : Nat} (hj : L * c ≤ j) :
    ∀ (bufs : List (List Sample)) (scratch : List Sample) (ch0 : Nat),
      ch0 + bufs.length ≤ c →
      (∀ b, b ∈ bufs → b.length ≤ L) →
      (writeChannels c scratch ch0 bufs)[j]? = scratch[j]? := by
  intro bufs
  induction bufs with
  | nil => intro scratch ch0 _ _; rfl
  | cons b bs ih =>
    intro scratch ch0 hle hlen
    have hch0 : ch0 < c := by
      rw [List.length_cons] at hle
      omega
    have hbc : (0 + b.length) * c ≤ j := by
      rw [Nat.zero_add]
      exact le_trans (Nat.mul_le_mul_right c (hlen b (by simp))) hj
    rw [writeChannels,
      ih _ (ch0 + 1) (by rw [List.length_cons] at hle; omega)
        (fun x hx => hlen x (by simp [hx])),
      writeChannel_getElem?_of_ge c ch0 hch0 _ _ _ hbc]

theorem writeChannels_getElem?_hit (c : Nat) (hc : 0 < c) :
    ∀ (bufs : List (List Sample)) (scratch : List Sample) (ch0 k i : Nat) (b : List Sample),
      bufs[k]? = some b →
      ch0 + bufs.length ≤ c →
      i < b.length →
      i * c + (ch0 + k) < scratch.length →
      (writeChannels c scratch ch0 bufs)[i * c + (ch0 + k)]? = b[i]? := by
  intro bufs
  induction bufs with
  | nil =>
    intro scratch ch0 k i b hb
    simp at hb
  | cons b0 bs ih =>
    intro scratch ch0 k i b hb hle hi hbound
    have hch0 : ch0 < c := by
      rw [List.length_cons] at hle
      omega
    cases k with
    | zero =>
      have hb0 : b = b0 := by
        rw [List.getElem?_cons_zero, Option.some.injEq] at hb
        exact hb.symm
      subst hb0
      rw [writeChannels,
        writeChannels_getElem?_untouched c bs _ (ch0 + 1)
          (by rw [List.length_cons] at hle; omega)
          (fun x hx => by
            rw [Nat.add_comm (i * c) (ch0 + 0), Nat.add_mul_mod_self_right,
              Nat.mod_eq_of_lt (by omega)]
            omega)]
      have hh := writeChannel_getElem?_hit c ch0 hc b scratch 0 i hi
        (by rw [Nat.zero_add]; rw [Nat.add_zero] at hbound; exact hbound)
      rw [Nat.zero_add] at hh
      rw [Nat.add_zero]
      exact hh
    | succ k' =>
      have hidxeq : i * c + (ch0 + (k' + 1)) = i * c + (ch0 + 1 + k') := by omega
      rw [writeChannels, hidxeq,
        ih _ (ch0 + 1) k' i b (by simpa using hb)
          (by rw [List.length_cons] at hle; omega) hi
          (by rw [writeChannel_length, ← hidxeq]; exact hbound)]

theorem interleave_length {scratch : List Sample} {bufs : List (List Sample)}
    (h1 : bufs.length ≠ 1) :
    (interleave scratch bufs).1.length = scratch.length := by
  simp only [interleave, if_neg h1]
  exact writeChannels_length _ _ _ _

theorem getElem?_drop' (l : List Sample) : ∀ (m t : Nat), (l.drop m)[t]? = l[m + t]? := by
  induction l with
  | nil => intro m t; simp
  | cons a l' ih =>
    intro m t
    cases m with
    | zero => simp
    | succ m' =>
      rw [List.drop_succ_cons, ih m' t,
        show m' + 1 + t = (m' + t) + 1 from by omega, List.getElem?_cons_succ]

theorem writeChannel_oob (c ch : Nat) :
    ∀ (b scratch : List Sample) (i : Nat), scratch.length ≤ i * c →
      writeChannel c ch scratch i b = scratch := by
  intro b
  induction b with
  | nil => intro scratch i _; rfl
  | cons v tl ih =>
    intro scratch i hle
    have hset : scratch.set (i * c + ch) v = scratch :=
      List.set_eq_of_length_le (by omega)
    have hrec : scratch.length ≤ (i + 1) * c := by
      rw [Nat.add_mul, Nat.one_mul]
      omega
    rw [writeChannel, hset, ih _ _ hrec]

theorem writeChannel_take (c ch n : Nat) :
    ∀ (b scratch : List Sample) (i : Nat), scratch.length ≤ (i + n) * c →
      writeChannel c ch scratch i b = writeChannel c ch scratch i (b.take n) := by
  intro b
  induction b generalizing n with
  | nil => intro scratch i _; rw [List.take_nil]
  | cons v tl ih =>
    intro scratch i hle
    cases n with
    | zero =>
      rw [List.take_zero]
      show writeChannel c ch scratch i (v :: tl) = scratch
      exact writeChannel_oob c ch (v :: tl) scratch i (by rw [Nat.add_zero] at hle; omega)
    | succ n' =>
      rw [List.take_succ_cons, writeChannel, writeChannel,
        ih n' (scratch.set (i * c + ch) v) (i + 1)
          (by rw [List.length_set, show i + 1 + n' = i + (n' + 1) from by omega]; exact hle)]

theorem writeChannels_take (c n : Nat) :
    ∀ (bufs : List (List Sample)) (scratch : List Sample) (ch0 : Nat),
      scratch.length ≤ n * c →
      writeChannels c scratch ch0 bufs
        = writeChannels c scratch ch0 (bufs.map (fun b => b.take n)) := by
  intro bufs
  induction bufs with
  | nil => intro scratch ch0 _; rfl
  | cons b bs ih =>
    intro scratch ch0 hle
    rw [List.map_cons, writeChannels, writeChannels,
      ← writeChannel_take c ch0 n b scratch 0 (by rw [Nat.zero_add]; exact hle),
      ih _ (ch0 + 1) (by rw [writeChannel_length]; exact hle)]

/-- C4 (counterexample): the interleaving-correctness claim is false as
stated, because it puts no bound on the per-channel chunk length `L`.  At
`channelCount = 2` and `L = 4097`, per-channel index `i = 4096`, channel
`ch = 0`, the interleaved stream produced has no element at index
`i × channelCount + ch = 8192` (the reused scratch buffer is only
`4096 × 2` long and the out-of-bounds store was discarded), while
`channelBuffers[0][4096]` is the sample `1`, so
`interleaved[i × channelCount + ch] = channelBuffers[ch][i]` fails. -/
theorem interleave_correct_cex :
    (interleave (List.replicate (BUFFER_LENGTH * 2) 0)
        [List.replicate 4097 1, List.replicate 4097 1]).1[4096 * 2 + 0]?
      ≠ (List.replicate 4097 (1 : Sample))[4096]? := by
  have hlen : (interleave (List.replicate (BUFFER_LENGTH * 2) 0)
      [List.replicate 4097 1, List.replicate 4097 1]).1.length = BUFFER_LENGTH * 2 := by
    rw [interleave_length (by decide), List.length_replicate]
  rw [List.getElem?_eq_none (by rw [hlen]; decide),
    List.getElem?_replicate_of_lt (by decide)]
  simp

/-- C4 (amended): interleaving correctness holds for every per-channel chunk
length `L` that does not exceed the scratch chunk size `BUFFER_LENGTH`
(4096): for every Feed call with channelCount > 1 and per-channel buffers of
equal length `L ≤ 4096`, the interleaved stream satisfies
`interleaved[i × channelCount + ch] = channelBuffers[ch][i]` for all
`i ∈ [0, L)` and `ch ∈ [0, channelCount)`. -/
theorem interleave_correct (scratch : List Sample) (bufs : List (List Sample))
    (c L i ch : Nat) (b : List Sample)
    (hc : 2 ≤ c) (hlen : bufs.length = c)
    (hscratch : scratch.length = BUFFER_LENGTH * c)
    (hL : ∀ x ∈ bufs, x.length = L)
    (hLle : L ≤ BUFFER_LENGTH)
    (hb : bufs[ch]? = some b) (hi : i < L) (hch : ch < c) :
    (interleave scratch bufs).1[i * c + ch]? = b[i]? := by
  have hne : bufs.length ≠ 1 := by omega
  have hblen : b.length = L := hL b (List.getElem?_mem hb)
  have hmul : (i + 1) * c ≤ BUFFER_LENGTH * c :=
    Nat.mul_le_mul_right c (by omega)
  have hbound : i * c + (0 + ch) < scratch.length := by
    rw [Nat.add_mul, Nat.one_mul] at hmul
    rw [hscratch, Nat.zero_add]
    omega
  have hh := writeChannels_getElem?_hit c (by omega) bufs scratch 0 ch i b hb
    (by omega) (by omega) hbound
  rw [Nat.zero_add] at hh
  simp only [interleave, if_neg hne]
  rw [hlen]
  exact hh

/-- C4 (witness for the amended theorem): with channel buffers
`[10, 11, 12]` and `[20, 21, 22]` the interleaved stream holds `21`
(channel 1, per-channel index 1) at stream index `1 × 2 + 1 = 3`, i.e. the
stream starts `10, 20, 11, 21, …`. -/
theorem interleave_correct_witness :
    (interleave (List.replicate (BUFFER_LENGTH * 2) 0)
      [[10, 11, 12], [20, 21, 22]]).1[1 * 2 + 1]? = some 21 :=
  (interleave_correct (List.replicate (BUFFER_LENGTH * 2) 0)
    [[10, 11, 12], [20, 21, 22]] 2 3 1 1 [20, 21, 22]
    (by decide) (by decide) (by rw [List.length_replicate])
    (by decide) (by decide) (by decide) (by decide) (by decide)).trans (by decide)

/-- C2: with channelCount > 1, `interleave` returns the whole reused scratch
buffer: the stream has length `BUFFER_LENGTH × channelCount` regardless of
the per-channel chunk length `L` (so each encode call pushes exactly that
many samples through the staging loop); beyond index `L × channelCount` the
stream carries the scratch buffer's stale previous contents unchanged; and
samples at per-channel index `≥ 4096` are written out of the scratch
buffer's bounds and silently discarded — the result is identical to
interleaving the chunks truncated to 4096 samples per channel. -/
theorem interleave_whole_scratch (scratch : List Sample)
    (bufs : List (List Sample)) (c L : Nat)
    (hc : 2 ≤ c) (hlen : bufs.length = c)
    (hscratch : scratch.length = BUFFER_LENGTH * c)
    (hL : ∀ x ∈ bufs, x.length = L) :
    (interleave scratch bufs).1.length = BUFFER_LENGTH * c ∧
    (interleave scratch bufs).1.drop (L * c) = scratch.drop (L * c) ∧
    interleave scratch bufs
      = interleave scratch (bufs.map (fun b => b.take BUFFER_LENGTH)) := by
  have hne : bufs.length ≠ 1 := by omega
  have hne' : (bufs.map (fun b => b.take BUFFER_LENGTH)).length ≠ 1 := by
    rw [List.length_map]
    exact hne
  refine ⟨?_, ?_, ?_⟩
  · rw [interleave_length hne, hscratch]
  · refine List.ext_getElem? fun t => ?_
    rw [getElem?_drop', getElem?_drop']
    simp only [interleave, if_neg hne]
    rw [hlen]
    exact writeChannels_getElem?_of_ge c (Nat.le_add_right _ _) bufs scratch 0
      (by omega) (fun b hb => le_of_eq (hL b hb))
  · simp only [interleave, if_neg hne, if_neg hne', List.length_map]
    rw [hlen, ← writeChannels_take c BUFFER_LENGTH bufs scratch 0 (le_of_eq hscratch)]

/-- C2 (witness): two channels of one sample each — the stream is the whole
8192-sample scratch, its tail beyond index `1 × 2` is the stale scratch
contents, and truncation to 4096 samples per channel changes nothing. -/
theorem interleave_whole_scratch_witness :
    (interleave (List.replicate (BUFFER_LENGTH * 2) 0) [[5], [7]]).1.length
        = BUFFER_LENGTH * 2 ∧
    (interleave (List.replicate (BUFFER_LENGTH * 2) 0) [[5], [7]]).1.drop (1 * 2)
        = (List.replicate (BUFFER_LENGTH * 2) (0 : Sample)).drop (1 * 2) ∧
    interleave (List.replicate (BUFFER_LENGTH * 2) 0) [[5], [7]]
      = interleave (List.replicate (BUFFER_LENGTH * 2) 0)
          ([[5], [7]].map (fun b => b.take BUFFER_LENGTH)) :=
  interleave_whole_scratch (List.replicate (BUFFER_LENGTH * 2) 0) [[5], [7]] 2 1
    (by decide) (by decide) (by rw [List.length_replicate]) (by decide)

/-- C9: single-channel identity — with channelCount = 1 the interleave step
returns the single per-channel sequence itself (the scratch buffer is
untouched), so a successful Feed appends to the staging stream exactly the
input sequence: flushed frames followed by the buffered remainder are the
previously buffered prefix followed by the input. -/
theorem encode_single_channel (ext : Ext) (s : St) (b : List Sample) (final : Bool)
    (s' : St) (evs : List Ev)
    (hcap : 0 < s.mInputBuffer.length)
    (hidx : s.inputBufferIndex < s.mInputBuffer.length)
    (h : encode ext s [b] final = Except.ok (s', evs)) :
    interleave s.interleavedBuffers [b] = (b, s.interleavedBuffers) ∧
    s'.interleavedBuffers = s.interleavedBuffers ∧
    flushedSamples evs ++ s'.mInputBuffer.take s'.inputBufferIndex
      = s.mInputBuffer.take s.inputBufferIndex ++ b := by
  have hid : interleave s.interleavedBuffers [b] = (b, s.interleavedBuffers) := by
    simp [interleave]
  obtain ⟨_, e2, _, _, _, e6, _⟩ := encode_spec hcap hidx h
  rw [hid] at e2 e6
  exact ⟨hid, e2, e6⟩

/-- C9 (witness): capacity 2, cursor 0, feeding the single channel `[4]`
leaves `[4]` buffered — the staging stream received exactly the input. -/
theorem encode_single_channel_witness :
    interleave ([] : List Sample) [[4]] = ([4], []) ∧
    ({ inputBufferIndex := 1, mInputBuffer := [4, 0], interleavedBuffers := [],
       flushCount := 0 } : St).interleavedBuffers
      = ({ inputBufferIndex := 0, mInputBuffer := [0, 0], interleavedBuffers := [],
           flushCount := 0 } : St).interleavedBuffers ∧
    flushedSamples []
        ++ ({ inputBufferIndex := 1, mInputBuffer := [4, 0], interleavedBuffers := [],
              flushCount := 0 } : St).mInputBuffer.take 1
      = ({ inputBufferIndex := 0, mInputBuffer := [0, 0], interleavedBuffers := [],
           flushCount := 0 } : St).mInputBuffer.take 0 ++ [4] :=
  encode_single_channel ⟨fun _ => 0, fun _ => 1⟩
    { inputBufferIndex := 0, mInputBuffer := [0, 0], interleavedBuffers := [],
      flushCount := 0 }
    [4] false
    { inputBufferIndex := 1, mInputBuffer := [4, 0], interleavedBuffers := [],
      flushCount := 0 }
    [] (by decide) (by decide) rfl

/-- C8: for every oracle, state, input and the `isFinal` flag, `encode` with
`isFinal = true` is literally the same computation as with
`isFinal = false`: the source's `if (final) { }` has an empty body, so the
flag forces no flush of a partially-filled staging buffer and no other
action. -/
theorem encode_final_irrelevant (ext : Ext) (s : St) (buffers : List (List Sample))
    (final : Bool) : encode ext s buffers final = encode ext s buffers false := rfl

/-- C7: raises-iff inside a flush cycle — the resample stage fails with the
resampling error iff the external resampler call returns a non-success
status; the encode stage fails with the encoding error iff the resampler
succeeded and the external encoder call returns a negative length; the cycle
succeeds in every other case. -/
theorem flushFrame_error_iff (ext : Ext) (s : St) :
    (flushFrame ext s = Except.error EncodeError.resampling
      ↔ ext.resStatus s.flushCount ≠ RESAMPLER_ERR_SUCCESS) ∧
    (flushFrame ext s = Except.error EncodeError.encoding
      ↔ ext.resStatus s.flushCount = RESAMPLER_ERR_SUCCESS
        ∧ ext.encLen s.flushCount < 0) ∧
    ((∃ r, flushFrame ext s = Except.ok r)
      ↔ ext.resStatus s.flushCount = RESAMPLER_ERR_SUCCESS
        ∧ 0 ≤ ext.encLen s.flushCount) := by
  simp only [flushFrame]
  by_cases h1 : ext.resStatus s.flushCount = RESAMPLER_ERR_SUCCESS
  · by_cases h2 : ext.encLen s.flushCount < 0
    · simp [h1, h2]
    · simp [h1, h2]
      omega
  · simp [h1]

/-- C5: frame-flush cycles — a successful Feed performs its external calls as
complete resample → encode → container-write cycles in that strict order
(`CycleTrace`), one cycle for each time the cursor reaches capacity, i.e.
`(cursor₀ + samples) / capacity` cycles, resetting the cursor to
`(cursor₀ + samples) % capacity`; with an empty buffer, an input that exactly
fills the staging buffer produces exactly one cycle and cursor 0, and an
input longer than the capacity produces `samples / capacity` consecutive
cycles whose frames are exactly the successive capacity-sized slices of the
input, in order, with the remainder left buffered. -/
theorem encode_flush_cycles (ext : Ext) (s : St) (buffers : List (List Sample))
    (final : Bool) (s' : St) (evs : List Ev)
    (hcap : 0 < s.mInputBuffer.length)
    (hidx : s.inputBufferIndex < s.mInputBuffer.length)
    (h : encode ext s buffers final = Except.ok (s', evs)) :
    CycleTrace s.mInputBuffer.length evs ∧
    resampleCount evs
      = (s.inputBufferIndex + (interleave s.interleavedBuffers buffers).1.length)
        / s.mInputBuffer.length ∧
    s'.inputBufferIndex
      = (s.inputBufferIndex + (interleave s.interleavedBuffers buffers).1.length)
        % s.mInputBuffer.length ∧
    flushedSamples evs ++ s'.mInputBuffer.take s'.inputBufferIndex
      = s.mInputBuffer.take s.inputBufferIndex
        ++ (interleave s.interleavedBuffers buffers).1 ∧
    (s.inputBufferIndex = 0 →
      (interleave s.interleavedBuffers buffers).1.length = s.mInputBuffer.length →
      (∃ f n, evs = [Ev.resample f 0, Ev.encodePacket n, Ev.writeFrame n]
          ∧ f.length = s.mInputBuffer.length)
        ∧ s'.inputBufferIndex = 0) ∧
    (s.inputBufferIndex = 0 →
      s.mInputBuffer.length < (interleave s.interleavedBuffers buffers).1.length →
      1 ≤ resampleCount evs ∧
      resampleCount evs
        = (interleave s.interleavedBuffers buffers).1.length / s.mInputBuffer.length ∧
      flushedSamples evs
        = (interleave s.interleavedBuffers buffers).1.take
            (s.mInputBuffer.length * resampleCount evs) ∧
      s'.mInputBuffer.take s'.inputBufferIndex
        = (interleave s.interleavedBuffers buffers).1.drop
            (s.mInputBuffer.length * resampleCount evs)) := by
  obtain ⟨e1, e2, e3, e4, e5, e6, e7⟩ := encode_spec hcap hidx h
  refine ⟨e7, e5, e3, e6, ?_, ?_⟩
  · intro hz hfull
    constructor
    · obtain ⟨f, n, hevs, hflen, _⟩ := e7.eq_single
        (by rw [e5, hz, hfull]; simp [Nat.div_self hcap])
      exact ⟨f, n, hevs, hflen⟩
    · rw [e3, hz, hfull]
      simp
  · intro hz hlong
    have hflushlen : (flushedSamples evs).length
        = s.mInputBuffer.length * resampleCount evs :=
      e7.flushedSamples_length
    rw [hz] at e5 e6
    rw [Nat.zero_add] at e5
    rw [List.take_zero, List.nil_append] at e6
    refine ⟨?_, e5, ?_, ?_⟩
    · rw [e5, Nat.one_le_div_iff hcap]
      omega
    · rw [← e6, ← hflushlen, List.take_left]
    · rw [← e6, ← hflushlen, List.drop_left]

/-- C5 (witness): capacity 2, cursor 0, feeding `[5, 6]` exactly fills the
buffer: one resample → encode → write cycle on frame `[5, 6]`, cursor reset
to 0. -/
theorem encode_flush_cycles_witness :
    CycleTrace 2 [Ev.resample [5, 6] 0, Ev.encodePacket 1, Ev.writeFrame 1] ∧
    resampleCount [Ev.resample [5, 6] 0, Ev.encodePacket 1, Ev.writeFrame 1]
      = (0 + 2) / 2 := by
  have hh := encode_flush_cycles ⟨fun _ => 0, fun _ => 1⟩
    { inputBufferIndex := 0, mInputBuffer := [0, 0], interleavedBuffers := [],
      flushCount := 0 }
    [[5, 6]] false
    { inputBufferIndex := 0, mInputBuffer := [5, 6], interleavedBuffers := [],
      flushCount := 1 }
    [Ev.resample [5, 6] 0, Ev.encodePacket 1, Ev.writeFrame 1]
    (by decide) (by decide) rfl
  exact ⟨hh.1, hh.2.1⟩

/-- C1: sample conservation — starting from a fresh construction, for every
sequence of successful Feed calls the total number of interleaved samples
fed into the staging loop equals (number of full-frame flushes) × capacity
plus the final staging cursor, and the concatenation of all flushed frames
followed by the buffered remainder is exactly the concatenation of the
interleaved input streams: no sample is dropped, re-ordered or duplicated
across calls, and a remainder smaller than the capacity stays buffered. -/
theorem sample_conservation (iext : InitExt) (ext : Ext) (sr c : Nat) (s0 s' : St)
    (inputs : List (List (List Sample))) (evs : List Ev)
    (h0 : (construct iext sr c).1 = Except.ok s0)
    (hcap : 0 < s0.mInputBuffer.length)
    (h : feedMany ext s0 inputs = Except.ok (s', evs)) :
    ((interleaveStreams s0.interleavedBuffers inputs).map List.length).sum
      = s0.mInputBuffer.length * resampleCount evs + s'.inputBufferIndex ∧
    (interleaveStreams s0.interleavedBuffers inputs).flatten
      = flushedSamples evs ++ s'.mInputBuffer.take s'.inputBufferIndex ∧
    s'.inputBufferIndex < s0.mInputBuffer.length := by
  obtain ⟨_, _, hs0⟩ := construct_ok h0
  have hidx0 : s0.inputBufferIndex = 0 := by rw [hs0]
  obtain ⟨f1, f2, f3, f4, f5⟩ := feedMany_spec hcap (by omega) h
  rw [hidx0, Nat.zero_add] at f3
  rw [hidx0] at f4
  rw [List.take_zero, List.nil_append] at f4
  exact ⟨f3.symm, f4.symm, f2⟩

/-- C1 (witness): input rate 50 Hz, one channel, so capacity 1; feeding
chunks `[1, 2]` then `[3]` (3 samples in all) flushes the three one-sample
frames `[1]`, `[2]`, `[3]` in order and leaves the cursor at 0:
3 = 1 × 3 + 0 and the flushed stream is the whole input. -/
theorem sample_conservation_witness :
    ((interleaveStreams ([] : List Sample) [[[1, 2]], [[3]]]).map List.length).sum
      = 1 * resampleCount
          [Ev.resample [1] 0, Ev.encodePacket 1, Ev.writeFrame 1,
           Ev.resample [2] 0, Ev.encodePacket 1, Ev.writeFrame 1,
           Ev.resample [3] 0, Ev.encodePacket 1, Ev.writeFrame 1] + 0 ∧
    (interleaveStreams ([] : List Sample) [[[1, 2]], [[3]]]).flatten
      = flushedSamples
          [Ev.resample [1] 0, Ev.encodePacket 1, Ev.writeFrame 1,
           Ev.resample [2] 0, Ev.encodePacket 1, Ev.writeFrame 1,
           Ev.resample [3] 0, Ev.encodePacket 1, Ev.writeFrame 1]
        ++ ([3] : List Sample).take 0 := by
  have hh := sample_conservation ⟨0, 0⟩ ⟨fun _ => 0, fun _ => 1⟩ 50 1
    { inputBufferIndex := 0, mInputBuffer := [0], interleavedBuffers := [],
      flushCount := 0 }
    { inputBufferIndex := 0, mInputBuffer := [3], interleavedBuffers := [],
      flushCount := 3 }
    [[[1, 2]], [[3]]]
    [Ev.resample [1] 0, Ev.encodePacket 1, Ev.writeFrame 1,
     Ev.resample [2] 0, Ev.encodePacket 1, Ev.writeFrame 1,
     Ev.resample [3] 0, Ev.encodePacket 1, Ev.writeFrame 1]
    rfl (by decide) rfl
  exact ⟨hh.1, hh.2.1⟩

/-- C6: staging-cursor invariant — after a successful construction the
cursor is 0, and after every prefix of a sequence of successful Feed calls
it satisfies 0 ≤ cursor ≤ capacity (in fact cursor < capacity, because the
buffer is consumed the moment the cursor reaches capacity); moreover the
buffer is only ever consumed at exactly full frames: every flushed frame in
the trace has exactly `capacity` samples, never fewer. -/
theorem cursor_invariant (iext : InitExt) (ext : Ext) (sr c k : Nat) (s0 s' : St)
    (inputs : List (List (List Sample))) (evs : List Ev)
    (h0 : (construct iext sr c).1 = Except.ok s0)
    (hcap : 0 < s0.mInputBuffer.length)
    (h : feedMany ext s0 (inputs.take k) = Except.ok (s', evs)) :
    s'.inputBufferIndex ≤ s0.mInputBuffer.length ∧
    s'.inputBufferIndex < s0.mInputBuffer.length ∧
    CycleTrace s0.mInputBuffer.length evs := by
  obtain ⟨_, _, hs0⟩ := construct_ok h0
  have hidx0 : s0.inputBufferIndex = 0 := by rw [hs0]
  obtain ⟨_, f2, _, _, f5⟩ := feedMany_spec hcap (by omega) h
  exact ⟨Nat.le_of_lt f2, f2, f5⟩

/-- C6 (witness): input rate 100 Hz, one channel (capacity 2); after the
one-call prefix feeding `[9]` the cursor is 1 < 2 and no flush occurred. -/
theorem cursor_invariant_witness :
    (1 : Nat) ≤ 2 ∧ (1 : Nat) < 2 ∧ CycleTrace 2 [] := by
  have hh := cursor_invariant ⟨0, 0⟩ ⟨fun _ => 0, fun _ => 1⟩ 100 1 1
    { inputBufferIndex := 0, mInputBuffer := [0, 0], interleavedBuffers := [],
      flushCount := 0 }
    { inputBufferIndex := 1, mInputBuffer := [9, 0], interleavedBuffers := [],
      flushCount := 0 }
    [[[9]]] []
    rfl (by decide) rfl
  exact hh

/-- C3 (counterexample): the constructor does not release already-acquired
resources when a later acquisition fails.  With an opus-encoder creation
status of 1 (≠ OPUS_OK) the constructor throws the initialization error, the
container writer has already been acquired, and no release of it appears in
the trace — the container leaks, contradicting the claim that every
earlier-acquired resource is released before the error propagates. -/
theorem construct_leak_cex :
    (construct ⟨1, 0⟩ 48000 2).1 = Except.error InitError.opusInit ∧
    RsrcEv.acquireContainer ∈ (construct ⟨1, 0⟩ 48000 2).2 ∧
    RsrcEv.releaseContainer ∉ (construct ⟨1, 0⟩ 48000 2).2 := by
  refine ⟨rfl, ?_, ?_⟩ <;> decide

/-- C3 (amended): if the opus-encoder or the speex-resampler acquisition
reports a non-success status, Construct fails with an initialization error,
but no already-acquired resource is released before the error propagates:
the constructor's resource trace consists of acquisitions only.  In
particular an encoder-acquisition failure leaks the container writer. -/
theorem construct_fails_without_release (iext : InitExt) (sr c : Nat)
    (h : iext.opusErr ≠ OPUS_OK ∨ iext.speexErr ≠ RESAMPLER_ERR_SUCCESS) :
    (∃ e, (construct iext sr c).1 = Except.error e) ∧
    RsrcEv.acquireContainer ∈ (construct iext sr c).2 ∧
    ∀ ev ∈ (construct iext sr c).2,
      ev = RsrcEv.acquireContainer ∨ ev = RsrcEv.acquireEncoder
        ∨ ev = RsrcEv.acquireResampler := by
  by_cases h1 : iext.opusErr = OPUS_OK
  · have h2 : iext.speexErr ≠ RESAMPLER_ERR_SUCCESS := by tauto
    simp [construct, h1, h2]
  · simp [construct, h1]

/-- C3 (witness for the amended theorem): with an opus status of 1 the
constructor errors and its trace holds only the container and encoder
acquisitions. -/
theorem construct_fails_without_release_witness :
    (∃ e, (construct ⟨1, 0⟩ 48000 2).1 = Except.error e) ∧
    RsrcEv.acquireContainer ∈ (construct ⟨1, 0⟩ 48000 2).2 ∧
    ∀ ev ∈ (construct ⟨1, 0⟩ 48000 2).2,
      ev = RsrcEv.acquireContainer ∨ ev = RsrcEv.acquireEncoder
        ∨ ev = RsrcEv.acquireResampler :=
  construct_fails_without_release ⟨1, 0⟩ 48000 2 (Or.inl (by decide))

/-- C10: `close` performs exactly the six release calls of the source in
order — container writer first, then the staging input buffer, the
resampled buffer and the encoded-output buffer, then the encoder, then the
resampler — never fails, leaves every owned resource dead, and afterwards
the resources `encode` operates on are no longer available
(`canOperate` is false), so subsequent operations on the instance are
invalid. -/
theorem close_releases_in_order (r : Rsrc) :
    (close r).2 = [CloseEv.destroyContainer, CloseEv.freeInputBuffer,
      CloseEv.freeResampledBuffer, CloseEv.freeOutputBuffer,
      CloseEv.destroyEncoder, CloseEv.destroyResampler] ∧
    (close r).1 = Rsrc.mk false false false false false false ∧
    canOperate (close r).1 = false :=
  ⟨rfl, rfl, rfl⟩

end WebMOpusWorker
